import Mathlib

/-!
Shallow embedding of the `scopuscite` repository core (utils.py, scopus.py,
aggregate.py) together with proofs about its algorithms: the h-index
computation, the chunked fetch with retry, the cache-partitioning
orchestrator, the publication-author index, and the per-author statistics
(publications per year, accumulated coauthors).

Python lists become Lean `List`s, Python dicts with set values become total
functions into `Finset` (a missing key is the empty set), numpy integer
arrays become `List Nat` or `List Int`, and Python strings become `List Char`.
-/

namespace Scopuscite

/-- Embeds `chunks(l, n)` from utils.py: successive `n`-sized slices
`l[i:i+n]` for `i = 0, n, 2n, ...`.  Python's `range(0, len(l), 0)` raises
for `n = 0`, so that case is mapped to `[]` and every theorem assumes
`0 < n`. -/
def chunks : List α → Nat → List (List α)
  | [], _ => []
  | _ :: _, 0 => []
  | x :: xs, n + 1 => (x :: xs).take (n + 1) :: chunks ((x :: xs).drop (n + 1)) (n + 1)
termination_by l _ => l.length
decreasing_by simp; omega

/-- The fixed eid marker `'2-s2.0-'` (7 characters) used by utils.py. -/
def eidTag : List Char := ['2', '-', 's', '2', '.', '0', '-']

/-- Embeds `eid_to_scopus_id(eid)` from utils.py: the slice `eid[7:]`. -/
def eid_to_scopus_id (eid : List Char) : List Char := eid.drop 7

/-- Embeds `scopus_id_to_eid(scopus_id)` from utils.py:
`'2-s2.0-' + scopus_id`. -/
def scopus_id_to_eid (scopus_id : List Char) : List Char := eidTag ++ scopus_id

/-- One iteration of the bucketing loop of `hindex` in utils.py:
`count[n] += 1` if `x >= n` else `count[x] += 1`.  The numpy count array of
length `n + 1` is modeled as a function `Nat → Nat` (indices above `n` are
never touched nor read). -/
def bucketStep (n : Nat) (count : Nat → Nat) (x : Nat) : Nat → Nat :=
  fun i =>
    if n ≤ x then (if i = n then count i + 1 else count i)
    else (if i = x then count i + 1 else count i)

/-- The bucket array built by the first loop of `hindex` in utils.py,
starting from `np.zeros((n+1,))`. -/
def hindexCount (citations : List Nat) (n : Nat) : Nat → Nat :=
  citations.foldl (bucketStep n) (fun _ => 0)

/-- The second loop of `hindex` in utils.py:
`for i in reversed(range(0, n + 1)): h += count[i]; if h >= i: return i`,
with the running total `h` threaded explicitly.  The trailing `return h` of
the Python is unreachable (at `i = 0` the test `h >= 0` always succeeds);
it appears here as the `else` branch of the `i = 0` case. -/
def hindexScan (count : Nat → Nat) : Nat → Nat → Nat
  | h, 0 => if 0 ≤ h + count 0 then 0 else h + count 0
  | h, j + 1 =>
    if j + 1 ≤ h + count (j + 1) then j + 1
    else hindexScan count (h + count (j + 1)) j

/-- Embeds `hindex(citations)` from utils.py: bucket the citation counts into
`n + 1` bins (values `>= n` collapse into the top bin), then scan bins from
highest to lowest, returning the first bin index `i` where the running count
reaches `i`. -/
def hindex (citations : List Nat) : Nat :=
  hindexScan (hindexCount citations citations.length) 0 citations.length

example : hindex [3, 0, 6, 1, 5] = 3 := by decide
example : hindex [] = 0 := by decide
example : hindex [0, 0, 0] = 0 := by decide
example : hindex [5, 5, 5, 5, 5] = 5 := by decide

/-- Number of citation entries whose bucket index `min x n` is at least `i`. -/
def atLeastCount (c : List Nat) (n i : Nat) : Nat :=
  c.countP (fun x => decide (i ≤ min x n))

theorem bucketStep_apply (n : Nat) (m : Nat → Nat) (x i : Nat) :
    bucketStep n m x i = m i + (if min x n = i then 1 else 0) := by
  unfold bucketStep
  split_ifs <;> omega

theorem foldl_bucketStep (n : Nat) (c : List Nat) (m : Nat → Nat) (i : Nat) :
    (c.foldl (bucketStep n) m) i
      = m i + c.countP (fun x => decide (min x n = i)) := by
  induction c generalizing m with
  | nil => simp
  | cons x t ih =>
    rw [List.foldl_cons, ih, List.countP_cons, bucketStep_apply]
    by_cases h : min x n = i
    · simp [h]
      omega
    · simp [h]

theorem hindexCount_apply (c : List Nat) (n i : Nat) :
    hindexCount c n i = c.countP (fun x => decide (min x n = i)) := by
  unfold hindexCount
  rw [foldl_bucketStep, Nat.zero_add]

theorem atLeastCount_succ (c : List Nat) (n i : Nat) :
    atLeastCount c n i = atLeastCount c n (i + 1) + hindexCount c n i := by
  rw [hindexCount_apply]
  unfold atLeastCount
  induction c with
  | nil => simp
  | cons x t ih =>
    simp only [List.countP_cons, decide_eq_true_eq]
    split_ifs <;> omega

theorem atLeastCount_top (c : List Nat) (n : Nat) :
    atLeastCount c n (n + 1) = 0 := by
  unfold atLeastCount
  rw [List.countP_eq_zero]
  intro a _
  simp only [decide_eq_true_eq]
  omega

theorem atLeastCount_le_length (c : List Nat) (n i : Nat) :
    atLeastCount c n i ≤ c.length :=
  List.countP_le_length _

theorem atLeastCount_eq_countP (c : List Nat) (n i : Nat) (h : i ≤ n) :
    atLeastCount c n i = c.countP (fun x => decide (i ≤ x)) := by
  unfold atLeastCount
  induction c with
  | nil => simp
  | cons x t ih =>
    simp only [List.countP_cons, decide_eq_true_eq]
    split_ifs <;> omega

/-- The scan of `hindex`, entered at bin `i` with the running total that the
bins above `i` have already contributed. -/
def hindexRun (c : List Nat) (i : Nat) : Nat :=
  hindexScan (hindexCount c c.length) (atLeastCount c c.length (i + 1)) i

theorem hindexRun_correct (c : List Nat) (i : Nat) :
    hindexRun c i ≤ i ∧
    hindexRun c i ≤ atLeastCount c c.length (hindexRun c i) ∧
    ∀ j, j ≤ i → j ≤ atLeastCount c c.length j → j ≤ hindexRun c i := by
  induction i with
  | zero =>
    have h0 : hindexRun c 0 = 0 := by
      unfold hindexRun hindexScan
      simp
    refine ⟨?_, ?_, ?_⟩
    · rw [h0]
    · rw [h0]; exact Nat.zero_le _
    · intro j hj _
      rw [h0]; omega
  | succ k ih =>
    have hstep : hindexRun c (k + 1)
        = if k + 1 ≤ atLeastCount c c.length (k + 1) then k + 1
          else hindexRun c k := by
      unfold hindexRun
      rw [hindexScan]
      rw [← atLeastCount_succ]
    by_cases h : k + 1 ≤ atLeastCount c c.length (k + 1)
    · rw [hstep, if_pos h]
      refine ⟨le_refl _, h, ?_⟩
      intro j hj _
      exact hj
    · rw [hstep, if_neg h]
      obtain ⟨ih1, ih2, ih3⟩ := ih
      refine ⟨Nat.le_succ_of_le ih1, ih2, ?_⟩
      intro j hj hcnt
      rcases Nat.lt_or_ge j (k + 1) with hlt | hge
      · exact ih3 j (Nat.lt_succ_iff.mp hlt) hcnt
      · exfalso
        have : j = k + 1 := le_antisymm hj hge
        rw [this] at hcnt
        exact h hcnt

theorem hindex_eq_run (c : List Nat) : hindex c = hindexRun c c.length := by
  unfold hindex hindexRun
  rw [atLeastCount_top]

/-- C1: `hindex(citations)` returns the largest `h` such that at least `h` of
the entries are `≥ h` (first conjunct: the returned value is feasible; second
conjunct: it dominates every feasible `h`), and the four concrete examples of
the spec hold.  The bucketing-and-scan algorithm is the definition of `hindex`
itself. -/
theorem hindex_spec (c : List Nat) :
    hindex c ≤ c.countP (fun x => decide (hindex c ≤ x)) ∧
    (∀ h, h ≤ c.countP (fun x => decide (h ≤ x)) → h ≤ hindex c) ∧
    hindex [3, 0, 6, 1, 5] = 3 ∧ hindex [] = 0 ∧
    hindex [0, 0, 0] = 0 ∧ hindex [5, 5, 5, 5, 5] = 5 := by
  obtain ⟨h1, h2, h3⟩ := hindexRun_correct c c.length
  rw [← hindex_eq_run] at h1 h2 h3
  refine ⟨?_, ?_, by decide, by decide, by decide, by decide⟩
  · rw [← atLeastCount_eq_countP c c.length _ h1]
    exact h2
  · intro h hfeas
    have hn : h ≤ c.length :=
      le_trans hfeas (List.countP_le_length _)
    refine h3 h hn ?_
    rw [atLeastCount_eq_countP c c.length h hn]
    exact hfeas

/-- Witness for C1: the maximality conjunct applied at the concrete list
`[3, 0, 6, 1, 5]` and `h = 3`. -/
theorem hindex_spec_witness : 3 ≤ hindex [3, 0, 6, 1, 5] :=
  (hindex_spec [3, 0, 6, 1, 5]).2.1 3 (by decide)

/-- C9: stripping the first 7 characters after prepending `'2-s2.0-'` is the
identity on scopus ids, and the reverse composition
`scopus_id_to_eid (eid_to_scopus_id e) = e` holds exactly when `e` starts
with the 7-character marker `'2-s2.0-'`. -/
theorem eid_scopus_id_roundtrip (s e : List Char) :
    eid_to_scopus_id (scopus_id_to_eid s) = s ∧
    (scopus_id_to_eid (eid_to_scopus_id e) = e ↔ e.take 7 = eidTag) := by
  refine ⟨rfl, ?_, ?_⟩
  · intro h
    rw [← h]
    rfl
  · intro h
    show eidTag ++ e.drop 7 = e
    rw [← h]
    exact List.take_append_drop 7 e

/-- Witness for C9: the round trip evaluated on a concrete scopus id. -/
theorem eid_scopus_id_roundtrip_witness :
    eid_to_scopus_id (scopus_id_to_eid ['a', 'b']) = ['a', 'b'] :=
  (eid_scopus_id_roundtrip ['a', 'b'] ['x']).1

/-- Chunk size used by `get_author_publications` (scopus.py line 361),
a limit set by the Scopus API. -/
def author_pub_chunk_size : Nat := 10

/-- Chunk size used by `get_publication_info` (scopus.py line 568),
a limit set by the Scopus API. -/
def pub_info_chunk_size : Nat := 25

/-- Chunk size used by `get_author_info` (scopus.py line 737),
a limit set by the Scopus API. -/
def author_info_chunk_size : Nat := 25

theorem chunks_flatten : ∀ (l : List α) (n : Nat), 0 < n →
    (chunks l n).flatten = l
  | [], _, _ => by simp [chunks]
  | x :: xs, n + 1, _ => by
    rw [chunks]
    simp only [List.flatten_cons]
    rw [chunks_flatten ((x :: xs).drop (n + 1)) (n + 1) (Nat.succ_pos n)]
    exact List.take_append_drop _ _
termination_by l _ _ => l.length
decreasing_by simp; omega

theorem chunks_length : ∀ (l : List α) (n : Nat), 0 < n →
    (chunks l n).length = (l.length + n - 1) / n
  | [], n, hn => by
    simp only [chunks, List.length_nil, Nat.zero_add]
    rw [Nat.div_eq_of_lt (by omega)]
  | x :: xs, n + 1, _ => by
    rw [chunks]
    simp only [List.length_cons]
    rw [chunks_length ((x :: xs).drop (n + 1)) (n + 1) (Nat.succ_pos n)]
    simp only [List.length_drop, List.length_cons]
    have key : xs.length + 1 + (n + 1) - 1 = (xs.length + 1 - 1) + (n + 1) := by
      omega
    rw [key, Nat.add_div_right _ (Nat.succ_pos n)]
    rcases Nat.lt_or_ge (xs.length + 1) (n + 1) with hlt | hge
    · have h1 : xs.length + 1 - (n + 1) = 0 := by omega
      rw [h1]
      rw [Nat.div_eq_of_lt (by omega), Nat.div_eq_of_lt (by omega)]
    · have h1 : xs.length + 1 - (n + 1) + (n + 1) - 1 = xs.length + 1 - 1 := by
        omega
      rw [h1, Nat.add_comm]
termination_by l _ _ => l.length
decreasing_by simp; omega

theorem chunks_mem_length : ∀ (l : List α) (n : Nat), 0 < n →
    ∀ c ∈ chunks l n, 0 < c.length ∧ c.length ≤ n
  | [], _, _ => by simp [chunks]
  | x :: xs, n + 1, _ => by
    rw [chunks]
    intro c hc
    rcases List.mem_cons.mp hc with hc | hc
    · subst hc
      constructor
      · simp
      · simp only [List.length_take, List.length_cons]
        omega
    · exact chunks_mem_length ((x :: xs).drop (n + 1)) (n + 1) (Nat.succ_pos n) c hc
termination_by l _ _ => l.length
decreasing_by simp; omega

theorem chunks_dropLast_length : ∀ (l : List α) (n : Nat), 0 < n →
    ∀ c ∈ (chunks l n).dropLast, c.length = n
  | [], _, _ => by simp [chunks]
  | x :: xs, n + 1, _ => by
    rw [chunks]
    rcases le_or_lt (xs.length + 1) (n + 1) with hle | hgt
    · have hdrop : (x :: xs).drop (n + 1) = [] := by
        apply List.drop_eq_nil_of_le
        simpa using hle
      rw [hdrop]
      simp [chunks]
    · have hne : chunks ((x :: xs).drop (n + 1)) (n + 1) ≠ [] := by
        have hd : (x :: xs).drop (n + 1) ≠ [] := by
          intro hcon
          have hlen := congrArg List.length hcon
          simp at hlen
          omega
        rcases hd2 : (x :: xs).drop (n + 1) with _ | ⟨y, ys⟩
        · exact absurd hd2 hd
        · rw [chunks]
          exact List.cons_ne_nil _ _
      rw [List.dropLast_cons_of_ne_nil hne]
      intro c hc
      rcases List.mem_cons.mp hc with hc | hc
      · subst hc
        simp only [List.length_take, List.length_cons]
        omega
      · exact chunks_dropLast_length ((x :: xs).drop (n + 1)) (n + 1)
          (Nat.succ_pos n) c hc
termination_by l _ _ => l.length
decreasing_by simp; omega

/-- C7: for chunk size `k > 0`, `chunks` yields `ceil(N/k)` consecutive
slices whose concatenation is the input list, each slice of length `k`
except possibly the last (all slices are nonempty and of length at most
`k`), and the fetchers use chunk size 10 for author-publication search
and 25 for publication detail and author detail. -/
theorem chunks_spec (l : List α) (k : Nat) (hk : 0 < k) :
    (chunks l k).length = (l.length + k - 1) / k ∧
    (chunks l k).flatten = l ∧
    (∀ c ∈ (chunks l k).dropLast, c.length = k) ∧
    (∀ c ∈ chunks l k, 0 < c.length ∧ c.length ≤ k) ∧
    author_pub_chunk_size = 10 ∧ pub_info_chunk_size = 25 ∧
    author_info_chunk_size = 25 :=
  ⟨chunks_length l k hk, chunks_flatten l k hk, chunks_dropLast_length l k hk,
    chunks_mem_length l k hk, rfl, rfl, rfl⟩

/-- Witness for C7: 5 ids with chunk size 2 yield `ceil(5/2) = 3` chunks
whose concatenation is the input. -/
theorem chunks_spec_witness :
    (chunks [1, 2, 3, 4, 5] 2).length = (5 + 2 - 1) / 2 :=
  (chunks_spec [1, 2, 3, 4, 5] 2 (by decide)).1

/-- A remote response as seen by `Scopus.call_api`: an HTTP status code and
an abstract json body. -/
structure Response where
  status : Nat
  body : Nat
deriving DecidableEq

/-- The transient statuses retried by `Scopus.call_api` (scopus.py line 148):
membership in the Python set `{503, 504}`. -/
def transientStatus (s : Nat) : Bool := s == 503 || s == 504

/-- Embeds the retry loop of `Scopus.call_api` (scopus.py lines 141-156):
`get i` is the remote response to the `i`-th request of this call.  A 200
response returns the parsed body, any status outside `{200, 503, 504}`
returns `None` at once, a transient status consumes one of the `fuel`
remaining loop iterations, and an exhausted loop returns `None`. -/
def call_api_loop (get : Nat → Response) (attempt : Nat) :
    Nat → Option Nat
  | 0 => none
  | f + 1 =>
    let r := get attempt
    if r.status = 200 then some r.body
    else if !transientStatus r.status then none
    else call_api_loop get (attempt + 1) f

/-- Embeds `Scopus.call_api`: the Python loop header is
`for _ in range(10)`. -/
def call_api (get : Nat → Response) : Option Nat :=
  call_api_loop get 0 10

theorem call_api_loop_all_transient (get : Nat → Response) :
    ∀ fuel attempt,
      (∀ i, i < fuel → transientStatus (get (attempt + i)).status = true) →
      call_api_loop get attempt fuel = none := by
  intro fuel
  induction fuel with
  | zero => intro attempt _; rfl
  | succ f ih =>
    intro attempt h
    have h0 : transientStatus (get attempt).status = true := by
      have := h 0 (Nat.succ_pos f)
      simpa using this
    have hne : (get attempt).status ≠ 200 := by
      intro hcon
      rw [hcon] at h0
      simp [transientStatus] at h0
    rw [call_api_loop]
    simp only [if_neg hne, h0]
    simp only [Bool.not_true, Bool.false_eq_true, if_false]
    apply ih
    intro i hi
    have := h (i + 1) (Nat.succ_lt_succ hi)
    have harr : attempt + (i + 1) = attempt + 1 + i := by omega
    rw [harr] at this
    exact this

theorem call_api_loop_success (get : Nat → Response) :
    ∀ fuel attempt k, k < fuel →
      (∀ i, i < k → transientStatus (get (attempt + i)).status = true) →
      (get (attempt + k)).status = 200 →
      call_api_loop get attempt fuel = some (get (attempt + k)).body := by
  intro fuel
  induction fuel with
  | zero => intro attempt k hk; omega
  | succ f ih =>
    intro attempt k hk htr h200
    match k with
    | 0 =>
      rw [call_api_loop]
      simp only [Nat.add_zero] at h200
      simp [h200]
    | j + 1 =>
      have h0 : transientStatus (get attempt).status = true := by
        have := htr 0 (Nat.succ_pos j)
        simpa using this
      have hne : (get attempt).status ≠ 200 := by
        intro hcon
        rw [hcon] at h0
        simp [transientStatus] at h0
      rw [call_api_loop]
      simp only [if_neg hne, h0]
      simp only [Bool.not_true, Bool.false_eq_true, if_false]
      have harr : attempt + (j + 1) = attempt + 1 + j := by omega
      rw [harr] at h200 ⊢
      apply ih (attempt + 1) j (Nat.lt_of_succ_lt_succ hk) ?_ h200
      intro i hi
      have := htr (i + 1) (Nat.succ_lt_succ hi)
      have harr2 : attempt + (i + 1) = attempt + 1 + i := by omega
      rw [harr2] at this
      exact this

theorem call_api_loop_hard_failure (get : Nat → Response) :
    ∀ fuel attempt k, k < fuel →
      (∀ i, i < k → transientStatus (get (attempt + i)).status = true) →
      (get (attempt + k)).status ≠ 200 →
      transientStatus (get (attempt + k)).status = false →
      call_api_loop get attempt fuel = none := by
  intro fuel
  induction fuel with
  | zero => intro attempt k hk; omega
  | succ f ih =>
    intro attempt k hk htr hne200 hhard
    match k with
    | 0 =>
      rw [call_api_loop]
      simp only [Nat.add_zero] at hne200 hhard
      simp [if_neg hne200, hhard]
    | j + 1 =>
      have h0 : transientStatus (get attempt).status = true := by
        have := htr 0 (Nat.succ_pos j)
        simpa using this
      have hne : (get attempt).status ≠ 200 := by
        intro hcon
        rw [hcon] at h0
        simp [transientStatus] at h0
      rw [call_api_loop]
      simp only [if_neg hne, h0]
      simp only [Bool.not_true, Bool.false_eq_true, if_false]
      have harr : attempt + (j + 1) = attempt + 1 + j := by omega
      rw [harr] at hne200 hhard
      apply ih (attempt + 1) j (Nat.lt_of_succ_lt_succ hk) ?_ hne200 hhard
      intro i hi
      have := htr (i + 1) (Nat.succ_lt_succ hi)
      have harr2 : attempt + (i + 1) = attempt + 1 + i := by omega
      rw [harr2] at this
      exact this

/-- C2: a page request is retried while the remote returns 503 or 504, for
at most 10 consecutive attempts.  First conjunct: if the first 10 responses
are all transient the call gives up and returns `None` without ever reaching
the success path — in particular a stream of 11 consecutive transient
responses never gets past the tenth.  Second conjunct: transient responses
followed by a 200 within the first 10 attempts return that response's body.
Third conjunct: any other non-success status makes the call return `None`
immediately. -/
theorem call_api_spec (get : Nat → Response) :
    ((∀ i, i < 10 → transientStatus (get i).status = true) →
      call_api get = none) ∧
    (∀ k, k < 10 → (∀ i, i < k → transientStatus (get i).status = true) →
      (get k).status = 200 → call_api get = some (get k).body) ∧
    (∀ k, k < 10 → (∀ i, i < k → transientStatus (get i).status = true) →
      (get k).status ≠ 200 → transientStatus (get k).status = false →
      call_api get = none) := by
  refine ⟨?_, ?_, ?_⟩
  · intro h
    apply call_api_loop_all_transient get 10 0
    intro i hi
    simpa using h i hi
  · intro k hk htr h200
    have := call_api_loop_success get 10 0 k hk
      (by intro i hi; simpa using htr i hi) (by simpa using h200)
    simpa [call_api] using this
  · intro k hk htr hne hhard
    exact call_api_loop_hard_failure get 10 0 k hk
      (by intro i hi; simpa using htr i hi) (by simpa using hne)
      (by simpa using hhard)

/-- Witness for C2: a remote answering 503 forever makes `call_api` fail. -/
theorem call_api_spec_witness :
    call_api (fun _ => { status := 503, body := 0 }) = none :=
  (call_api_spec (fun _ => { status := 503, body := 0 })).1 (fun _ _ => rfl)

/-- Embeds the cache-partition loop shared by `Scopus.get_publication_info`
(scopus.py lines 537-554) and `Scopus.get_author_publications` (lines
344-359): with the force-reload flag off, each requested id is appended to
the cache-hit list when the cache holds it and to the to-fetch list
otherwise; with the flag on the cache read is skipped and every id is routed
to the fetch list. -/
def splitByCache (cache : Nat → Bool) (force_reload : Bool)
    (ids : List Nat) : List Nat × List Nat :=
  if force_reload then ([], ids)
  else ids.foldl
    (fun acc i => if cache i then (acc.1 ++ [i], acc.2) else (acc.1, acc.2 ++ [i]))
    ([], [])

theorem splitByCache_foldl (cache : Nat → Bool) (ids : List Nat) :
    ∀ acc : List Nat × List Nat,
      ids.foldl
        (fun acc i =>
          if cache i then (acc.1 ++ [i], acc.2) else (acc.1, acc.2 ++ [i]))
        acc
      = (acc.1 ++ ids.filter (fun i => cache i),
         acc.2 ++ ids.filter (fun i => !cache i)) := by
  induction ids with
  | nil => intro acc; simp
  | cons x t ih =>
    intro acc
    rw [List.foldl_cons, ih]
    by_cases h : cache x <;> simp [h]

theorem splitByCache_off (cache : Nat → Bool) (ids : List Nat) :
    splitByCache cache false ids
      = (ids.filter (fun i => cache i), ids.filter (fun i => !cache i)) := by
  unfold splitByCache
  rw [if_neg (by simp), splitByCache_foldl]
  simp

/-- The ids for which the chunked fetch obtains an entry, with the remote
modeled as the per-id predicate `found` (`found i = true` when the remote
returns an entry for id `i`, `false` when it reports the id not-found and
the entry is silently absent from the response). -/
def fetchedIds (found : Nat → Bool) (k : Nat) (ids : List Nat) : List Nat :=
  ((chunks ids k).map (fun c => c.filter found)).flatten

theorem flatten_map_filter (found : Nat → Bool) (L : List (List Nat)) :
    (L.map (fun c => c.filter found)).flatten = L.flatten.filter found := by
  induction L with
  | nil => rfl
  | cons c L ih =>
    simp only [List.map_cons, List.flatten_cons, List.filter_append, ih]

theorem fetchedIds_eq_filter (found : Nat → Bool) (k : Nat) (ids : List Nat)
    (hk : 0 < k) : fetchedIds found k ids = ids.filter found := by
  unfold fetchedIds
  rw [flatten_map_filter, chunks_flatten ids k hk]

/-- C3: with force-reload off, the orchestrator partitions the requested ids
into cache hits (served locally) and cache misses (routed to the chunked
remote fetcher); the union of cache-hit ids and freshly-fetched ids is
exactly the requested set minus the ids the remote reports not-found; each
id appears at most once across all issued chunk queries (no id is fetched
twice); and with force-reload on the cache-read step is skipped and the
whole request is routed to the remote fetcher. -/
theorem orchestrator_spec (cache found : Nat → Bool) (k : Nat)
    (ids : List Nat) (hk : 0 < k) (hnodup : ids.Nodup) :
    (∀ x, x ∈ (splitByCache cache false ids).1 ↔ x ∈ ids ∧ cache x = true) ∧
    (∀ x, x ∈ (splitByCache cache false ids).2 ↔ x ∈ ids ∧ cache x = false) ∧
    (∀ x, x ∈ (splitByCache cache false ids).1
            ++ fetchedIds found k (splitByCache cache false ids).2 ↔
          x ∈ ids ∧ (cache x = true ∨ found x = true)) ∧
    (∀ x, ((chunks (splitByCache cache false ids).2 k).flatten).count x ≤ 1) ∧
    splitByCache cache true ids = ([], ids) := by
  rw [splitByCache_off]
  refine ⟨?_, ?_, ?_, ?_, rfl⟩
  · intro x
    simp [List.mem_filter]
  · intro x
    simp [List.mem_filter]
  · intro x
    rw [fetchedIds_eq_filter found k _ hk]
    simp only [List.mem_append, List.mem_filter]
    by_cases hc : cache x <;> by_cases hf : found x <;> simp [hc, hf]
  · intro x
    rw [chunks_flatten _ k hk]
    have hnd : (ids.filter (fun i => !cache i)).Nodup := hnodup.filter _
    exact List.nodup_iff_count_le_one.mp hnd x

/-- Witness for C3: force-reload on routes all of `[1, 2, 3]` to the
fetcher. -/
theorem orchestrator_spec_witness :
    splitByCache (fun i => i == 1) true [1, 2, 3] = ([], [1, 2, 3]) :=
  (orchestrator_spec (fun i => i == 1) (fun i => i == 2) 1 [1, 2, 3]
    (by decide) (by decide)).2.2.2.2

/-- A row of the `pubs` dataframe as used by aggregate.py: the index entry
`scopus_id`, the `year` column and the `authors` column.  Ids are modeled
as naturals. -/
structure PubRow where
  scopus_id : Nat
  year : Nat
  authors : List Nat
deriving DecidableEq

/-- One step of the inner loop of `pubs_by_author` (aggregate.py lines
26-30): the running dict, modeled as a total function defaulting to the
empty set, gains `scopus_id` in the entry of `author`.  The Python branches
on key presence only to create the singleton `{scopus_id}`, which coincides
with inserting into the empty default. -/
def addAuthorPub (scopus_id : Nat) (m : Nat → Finset Nat) (author : Nat) :
    Nat → Finset Nat :=
  fun a => if a = author then insert scopus_id (m a) else m a

/-- Embeds `pubs_by_author(pubs)` from aggregate.py: iterates the rows of
the `authors` column, inverting the publication → author-list relation into
an author → publication-id-set map. -/
def pubs_by_author (pubs : List PubRow) : Nat → Finset Nat :=
  pubs.foldl
    (fun m row => row.authors.foldl (addAuthorPub row.scopus_id) m)
    (fun _ => ∅)

theorem foldl_addAuthorPub (p : Nat) (A : List Nat) :
    ∀ (m : Nat → Finset Nat) (a : Nat),
      (A.foldl (addAuthorPub p) m) a
        = if a ∈ A then insert p (m a) else m a := by
  induction A with
  | nil => intro m a; simp
  | cons x A ih =>
    intro m a
    rw [List.foldl_cons, ih]
    by_cases hx : a = x
    · subst hx
      by_cases hA : a ∈ A <;>
        simp [addAuthorPub, hA, Finset.insert_idem, List.mem_cons]
    · by_cases hA : a ∈ A <;>
        simp [addAuthorPub, hA, hx, List.mem_cons]

theorem pubs_by_author_foldl_mem (pubs : List PubRow) :
    ∀ (m : Nat → Finset Nat) (a x : Nat),
      (x ∈ (pubs.foldl
        (fun m row => row.authors.foldl (addAuthorPub row.scopus_id) m) m) a
      ↔ x ∈ m a ∨ ∃ r ∈ pubs, r.scopus_id = x ∧ a ∈ r.authors) := by
  induction pubs with
  | nil => intro m a x; simp
  | cons r t ih =>
    intro m a x
    rw [List.foldl_cons, ih]
    rw [foldl_addAuthorPub]
    by_cases hA : a ∈ r.authors
    · simp only [if_pos hA, Finset.mem_insert, List.mem_cons]
      constructor
      · rintro ((hx | hx) | ⟨q, hq, hqx, hqa⟩)
        · exact Or.inr ⟨r, Or.inl rfl, hx.symm, hA⟩
        · exact Or.inl hx
        · exact Or.inr ⟨q, Or.inr hq, hqx, hqa⟩
      · rintro (hx | ⟨q, (hq | hq), hqx, hqa⟩)
        · exact Or.inl (Or.inr hx)
        · subst hq
          exact Or.inl (Or.inl hqx.symm)
        · exact Or.inr ⟨q, hq, hqx, hqa⟩
    · simp only [if_neg hA, List.mem_cons]
      constructor
      · rintro (hx | ⟨q, hq, hqx, hqa⟩)
        · exact Or.inl hx
        · exact Or.inr ⟨q, Or.inr hq, hqx, hqa⟩
      · rintro (hx | ⟨q, (hq | hq), hqx, hqa⟩)
        · exact Or.inl hx
        · subst hq
          exact absurd hqa hA
        · exact Or.inr ⟨q, hq, hqx, hqa⟩

theorem pubs_by_author_mem (pubs : List PubRow) (a x : Nat) :
    x ∈ pubs_by_author pubs a
      ↔ ∃ r ∈ pubs, r.scopus_id = x ∧ a ∈ r.authors := by
  unfold pubs_by_author
  rw [pubs_by_author_foldl_mem]
  simp

/-- The set of author ids mentioned in any author list of the collection. -/
def allAuthors (pubs : List PubRow) : Finset Nat :=
  (pubs.flatMap (fun r => r.authors)).toFinset

/-- The total number of (author, publication) pairs in the index: the sizes
of the per-author publication sets, summed over every author that occurs. -/
def totalPairs (pubs : List PubRow) : Nat :=
  ∑ a ∈ allAuthors pubs, (pubs_by_author pubs a).card

theorem pubs_by_author_eq_toFinset (pubs : List PubRow) (a : Nat) :
    pubs_by_author pubs a
      = ((pubs.filter (fun r => a ∈ r.authors)).map PubRow.scopus_id).toFinset := by
  ext x
  rw [pubs_by_author_mem]
  simp only [List.mem_toFinset, List.mem_map, List.mem_filter,
    decide_eq_true_eq]
  constructor
  · rintro ⟨r, hr, hrx, hra⟩
    exact ⟨r, ⟨hr, hra⟩, hrx⟩
  · rintro ⟨r, ⟨hr, hra⟩, hrx⟩
    exact ⟨r, hr, hrx, hra⟩

theorem pubs_by_author_card (pubs : List PubRow) (a : Nat)
    (hids : (pubs.map PubRow.scopus_id).Nodup) :
    (pubs_by_author pubs a).card
      = pubs.countP (fun r => a ∈ r.authors) := by
  rw [pubs_by_author_eq_toFinset]
  have hsub : (pubs.filter (fun r => a ∈ r.authors)).map PubRow.scopus_id
      |>.Nodup := by
    apply List.Nodup.sublist _ hids
    exact List.Sublist.map _ (List.filter_sublist pubs)
  rw [List.toFinset_card_of_nodup hsub, List.length_map,
    ← List.countP_eq_length_filter]

theorem sum_countP_mem (U : Finset Nat) (ps : List PubRow)
    (hU : ∀ r ∈ ps, ∀ a ∈ r.authors, a ∈ U)
    (hauth : ∀ r ∈ ps, r.authors.Nodup) :
    ∑ a ∈ U, ps.countP (fun r => a ∈ r.authors)
      = (ps.map (fun r => r.authors.length)).sum := by
  induction ps with
  | nil => simp
  | cons r t ih =>
    have hstep : ∀ a : Nat, (r :: t).countP (fun q => a ∈ q.authors)
        = t.countP (fun q => a ∈ q.authors)
          + (if a ∈ r.authors then 1 else 0) := by
      intro a
      rw [List.countP_cons]
      by_cases h : a ∈ r.authors <;> simp [h]
    simp only [hstep]
    rw [Finset.sum_add_distrib]
    rw [ih (fun q hq => hU q (List.mem_cons_of_mem r hq))
      (fun q hq => hauth q (List.mem_cons_of_mem r hq))]
    have hfil : ∑ a ∈ U, (if a ∈ r.authors then 1 else 0)
        = r.authors.length := by
      rw [← Finset.card_filter]
      have hset : U.filter (fun a => a ∈ r.authors) = r.authors.toFinset := by
        ext a
        simp only [Finset.mem_filter, List.mem_toFinset]
        constructor
        · rintro ⟨_, ha⟩; exact ha
        · intro ha
          exact ⟨hU r (List.mem_cons_self r t) a ha, ha⟩
      rw [hset, List.toFinset_card_of_nodup (hauth r (List.mem_cons_self r t))]
    rw [hfil]
    simp
    omega

/-- A collection with a single publication that lists author 7 twice. -/
def pubsDup : List PubRow := [{ scopus_id := 1, year := 2000, authors := [7, 7] }]

/-- A collection of two well-formed publications. -/
def pubsTwo : List PubRow :=
  [{ scopus_id := 1, year := 2000, authors := [7, 8] },
   { scopus_id := 2, year := 1999, authors := [7] }]

/-- Counterexample for C4: a publication listing the same author twice.  The
index deduplicates, so the total number of (author, publication) pairs is 1
while the author-list length sum is 2, refuting the claim for arbitrary
collections. -/
theorem pubs_by_author_pairs_counterexample :
    ¬ (totalPairs pubsDup = (pubsDup.map (fun r => r.authors.length)).sum) := by
  decide

/-- C4 amended: for every publication collection whose scopus ids are
pairwise distinct and whose author lists are duplicate-free, every
publication `p` with author list `A` is in the index's set of every `a ∈ A`
(this holds for arbitrary collections), and the total number of
(author, publication) pairs in the index equals the sum of the author-list
lengths. -/
theorem pubs_by_author_spec (pubs : List PubRow)
    (hids : (pubs.map PubRow.scopus_id).Nodup)
    (hauth : ∀ r ∈ pubs, r.authors.Nodup) :
    (∀ r ∈ pubs, ∀ a ∈ r.authors, r.scopus_id ∈ pubs_by_author pubs a) ∧
    totalPairs pubs = (pubs.map (fun r => r.authors.length)).sum := by
  constructor
  · intro r hr a ha
    exact (pubs_by_author_mem pubs a r.scopus_id).mpr ⟨r, hr, rfl, ha⟩
  · unfold totalPairs
    have hcard : ∀ a ∈ allAuthors pubs,
        (pubs_by_author pubs a).card = pubs.countP (fun r => a ∈ r.authors) :=
      fun a _ => pubs_by_author_card pubs a hids
    rw [Finset.sum_congr rfl hcard]
    apply sum_countP_mem
    · intro r hr a ha
      unfold allAuthors
      rw [List.mem_toFinset, List.mem_flatMap]
      exact ⟨r, hr, ha⟩
    · exact hauth

/-- Witness for C4: two well-formed publications with three author slots in
total give three (author, publication) pairs. -/
theorem pubs_by_author_spec_witness :
    totalPairs pubsTwo = (pubsTwo.map (fun r => r.authors.length)).sum :=
  (pubs_by_author_spec pubsTwo (by decide) (by decide)).2

/-- The loop body of `_pubs_by_year` (aggregate.py lines 320-323): a
publication year inside the range `[start, start + n)` increments the
bucket at `year_range.index(year) = year - start`; any other year is
skipped by the `continue`. -/
def pubsYearStep (start n : Nat) (res : List Nat) (year : Nat) : List Nat :=
  if start ≤ year ∧ year < start + n then
    res.set (year - start) (res.getD (year - start) 0 + 1)
  else res

/-- Embeds `_pubs_by_year(pubs, year_range)` with
`year_range = range(start, start + n)`: a zero vector of length `n`
receives one increment per publication whose year lies in the range. -/
def pubs_by_year_vec (pubs : List PubRow) (start n : Nat) : List Nat :=
  pubs.foldl (fun res r => pubsYearStep start n res r.year)
    (List.replicate n 0)

theorem pubsYearStep_length (start n : Nat) (res : List Nat) (year : Nat) :
    (pubsYearStep start n res year).length = res.length := by
  unfold pubsYearStep
  split_ifs <;> simp

theorem pubs_by_year_foldl_length (pubs : List PubRow) (start n : Nat) :
    ∀ res : List Nat,
      (pubs.foldl (fun res r => pubsYearStep start n res r.year) res).length
        = res.length := by
  induction pubs with
  | nil => intro res; rfl
  | cons r t ih =>
    intro res
    rw [List.foldl_cons, ih, pubsYearStep_length]

theorem pubsYearStep_getD (start n : Nat) (res : List Nat) (year i : Nat)
    (hlen : res.length = n) (hi : i < n) :
    (pubsYearStep start n res year).getD i 0
      = res.getD i 0 + (if year = start + i then 1 else 0) := by
  unfold pubsYearStep
  by_cases hr : start ≤ year ∧ year < start + n
  · rw [if_pos hr]
    by_cases hy : year = start + i
    · have hji : year - start = i := by omega
      rw [hji, if_pos hy]
      have hilen : i < res.length := by omega
      simp [List.getD_eq_getElem?_getD, List.getElem?_set_self hilen]
    · have hji : year - start ≠ i := by omega
      rw [if_neg hy]
      simp [List.getD_eq_getElem?_getD, List.getElem?_set_ne hji]
  · rw [if_neg hr]
    have hy : year ≠ start + i := by omega
    rw [if_neg hy]
    omega

theorem pubs_by_year_foldl_getD (pubs : List PubRow) (start n : Nat) :
    ∀ (res : List Nat) (i : Nat), res.length = n → i < n →
      (pubs.foldl (fun res r => pubsYearStep start n res r.year) res).getD i 0
        = res.getD i 0 + pubs.countP (fun r => r.year = start + i) := by
  induction pubs with
  | nil => intro res i _ _; simp
  | cons r t ih =>
    intro res i hlen hi
    rw [List.foldl_cons,
      ih (pubsYearStep start n res r.year) i
        (by rw [pubsYearStep_length]; exact hlen) hi,
      pubsYearStep_getD start n res r.year i hlen hi,
      List.countP_cons]
    by_cases h : r.year = start + i
    · simp [h]
      omega
    · simp [h]

theorem pubs_by_year_vec_eq_map (pubs : List PubRow) (start n : Nat) :
    pubs_by_year_vec pubs start n
      = (List.range' start n).map
          (fun y => pubs.countP (fun r => r.year = y)) := by
  apply List.ext_getElem
  · unfold pubs_by_year_vec
    rw [pubs_by_year_foldl_length]
    simp
  · intro i hi hj
    have hin : i < n := by
      have := hi
      unfold pubs_by_year_vec at this
      rw [pubs_by_year_foldl_length] at this
      simpa using this
    have hleft : (pubs_by_year_vec pubs start n).getD i 0
        = pubs.countP (fun r => r.year = start + i) := by
      unfold pubs_by_year_vec
      rw [pubs_by_year_foldl_getD pubs start n (List.replicate n 0) i
        (by simp) hin]
      simp
    have hlg : (pubs_by_year_vec pubs start n).getD i 0
        = (pubs_by_year_vec pubs start n)[i] := List.getD_eq_getElem _ _ hi
    rw [← hlg, hleft]
    rw [List.getElem_map, List.getElem_range']
    simp

theorem countP_year_mem_cons (ps : List PubRow) (y : Nat) (ys : List Nat)
    (hy : y ∉ ys) :
    ps.countP (fun r => r.year ∈ y :: ys)
      = ps.countP (fun r => r.year = y) + ps.countP (fun r => r.year ∈ ys) := by
  induction ps with
  | nil => simp
  | cons r t ih =>
    simp only [List.countP_cons]
    rw [ih]
    by_cases h1 : r.year = y
    · have h2 : r.year ∉ ys := fun hc => hy (h1 ▸ hc)
      have e1 : decide (r.year ∈ y :: ys) = true := by
        simp [List.mem_cons, h1]
      have e2 : decide (r.year = y) = true := by simp [h1]
      have e3 : decide (r.year ∈ ys) = false := by simp [h2]
      rw [e1, e2, e3]
      simp only [if_true, if_false, Bool.false_eq_true]
      omega
    · by_cases h2 : r.year ∈ ys
      · have e1 : decide (r.year ∈ y :: ys) = true := by
          simp [List.mem_cons, h2]
        have e2 : decide (r.year = y) = false := by simp [h1]
        have e3 : decide (r.year ∈ ys) = true := by simp [h2]
        rw [e1, e2, e3]
        simp only [if_true, if_false, Bool.false_eq_true]
        omega
      · have e1 : decide (r.year ∈ y :: ys) = false := by
          simp [List.mem_cons, h1, h2]
        have e2 : decide (r.year = y) = false := by simp [h1]
        have e3 : decide (r.year ∈ ys) = false := by simp [h2]
        rw [e1, e2, e3]
        simp only [if_true, if_false, Bool.false_eq_true]
        omega

theorem sum_map_countP_year (ps : List PubRow) :
    ∀ ys : List Nat, ys.Nodup →
      (ys.map (fun y => ps.countP (fun r => r.year = y))).sum
        = ps.countP (fun r => r.year ∈ ys) := by
  intro ys
  induction ys with
  | nil => intro _; simp
  | cons y ys ih =>
    intro hnd
    rw [List.map_cons, List.sum_cons, ih (List.Nodup.of_cons hnd),
      countP_year_mem_cons ps y ys (by simp at hnd; exact hnd.1)]

/-- C6: bucket `i` of the `pubs_by_year` vector counts exactly the
publications whose year is `start + i` (each in-range publication
contributes +1 to the bucket matching its year, out-of-range publications
are ignored), and the sum of the vector equals the number of publications
whose year falls inside `[start, start + n)`. -/
theorem pubs_by_year_spec (pubs : List PubRow) (start n : Nat) :
    pubs_by_year_vec pubs start n
      = (List.range' start n).map
          (fun y => pubs.countP (fun r => r.year = y)) ∧
    (pubs_by_year_vec pubs start n).sum
      = pubs.countP (fun r => start ≤ r.year ∧ r.year < start + n) := by
  refine ⟨pubs_by_year_vec_eq_map pubs start n, ?_⟩
  rw [pubs_by_year_vec_eq_map pubs start n,
    sum_map_countP_year pubs (List.range' start n)
      (List.nodup_range' start n 1 (by omega))]
  apply List.countP_congr
  intro r _
  simp only [decide_eq_true_eq, List.mem_range'_1]

/-- Union of the author lists of the publications of year `y`: the
groupby-union-reindex step of `_ncoauthors_acc` (aggregate.py lines
275-282); a year with no publications gets the empty set (the NaN-fill of
the Python). -/
def coauthorsOfYear (pubs : List PubRow) (y : Nat) : Finset Nat :=
  ((pubs.filter (fun r => r.year = y)).flatMap (fun r => r.authors)).toFinset

/-- The initial accumulator of `_ncoauthors_acc` (line 285): coauthors on
publications dated strictly before the range start. -/
def coauthorsBefore (pubs : List PubRow) (start : Nat) : Finset Nat :=
  ((pubs.filter (fun r => r.year < start)).flatMap (fun r => r.authors)).toFinset

/-- The accumulation loop of `_ncoauthors_acc` (lines 288-290): per year of
the range, the accumulator absorbs that year's coauthor set and the
accumulator's size is recorded. -/
def ncoauthorsAccLoop (pubs : List PubRow) : Finset Nat → List Nat → List Nat
  | _, [] => []
  | acc, y :: ys =>
    (acc ∪ coauthorsOfYear pubs y).card ::
      ncoauthorsAccLoop pubs (acc ∪ coauthorsOfYear pubs y) ys

/-- Embeds `_ncoauthors_acc(pubs, year_range)` with
`year_range = range(start, start + n)`. -/
def ncoauthors_acc_vec (pubs : List PubRow) (start n : Nat) : List Nat :=
  ncoauthorsAccLoop pubs (coauthorsBefore pubs start) (List.range' start n)

/-- Distinct coauthors over all publications dated at most `y`. -/
def coauthorsUpTo (pubs : List PubRow) (y : Nat) : Finset Nat :=
  ((pubs.filter (fun r => r.year ≤ y)).flatMap (fun r => r.authors)).toFinset

theorem coauthorsUpTo_union_next (pubs : List PubRow) (y : Nat) :
    coauthorsUpTo pubs y ∪ coauthorsOfYear pubs (y + 1)
      = coauthorsUpTo pubs (y + 1) := by
  ext a
  simp only [coauthorsUpTo, coauthorsOfYear, Finset.mem_union,
    List.mem_toFinset, List.mem_flatMap, List.mem_filter, decide_eq_true_eq]
  constructor
  · rintro (⟨r, ⟨hr, hy⟩, ha⟩ | ⟨r, ⟨hr, hy⟩, ha⟩)
    · exact ⟨r, ⟨hr, by omega⟩, ha⟩
    · exact ⟨r, ⟨hr, by omega⟩, ha⟩
  · rintro ⟨r, ⟨hr, hy⟩, ha⟩
    rcases Nat.lt_or_ge r.year (y + 1) with h | h
    · exact Or.inl ⟨r, ⟨hr, by omega⟩, ha⟩
    · exact Or.inr ⟨r, ⟨hr, by omega⟩, ha⟩

theorem coauthorsBefore_union_start (pubs : List PubRow) (start : Nat) :
    coauthorsBefore pubs start ∪ coauthorsOfYear pubs start
      = coauthorsUpTo pubs start := by
  ext a
  simp only [coauthorsUpTo, coauthorsOfYear, coauthorsBefore,
    Finset.mem_union, List.mem_toFinset, List.mem_flatMap, List.mem_filter,
    decide_eq_true_eq]
  constructor
  · rintro (⟨r, ⟨hr, hy⟩, ha⟩ | ⟨r, ⟨hr, hy⟩, ha⟩)
    · exact ⟨r, ⟨hr, by omega⟩, ha⟩
    · exact ⟨r, ⟨hr, by omega⟩, ha⟩
  · rintro ⟨r, ⟨hr, hy⟩, ha⟩
    rcases Nat.lt_or_ge r.year start with h | h
    · exact Or.inl ⟨r, ⟨hr, h⟩, ha⟩
    · exact Or.inr ⟨r, ⟨hr, by omega⟩, ha⟩

theorem ncoauthorsAccLoop_closed (pubs : List PubRow) :
    ∀ (k y : Nat),
      ncoauthorsAccLoop pubs (coauthorsUpTo pubs y) (List.range' (y + 1) k)
        = (List.range' (y + 1) k).map
            (fun z => (coauthorsUpTo pubs z).card) := by
  intro k
  induction k with
  | zero => intro y; rfl
  | succ m ih =>
    intro y
    rw [List.range'_succ (y + 1) m 1, ncoauthorsAccLoop,
      coauthorsUpTo_union_next pubs y, List.map_cons]
    have := ih (y + 1)
    rw [this]

theorem ncoauthors_acc_vec_closed (pubs : List PubRow) (start n : Nat) :
    ncoauthors_acc_vec pubs start n
      = (List.range' start n).map (fun z => (coauthorsUpTo pubs z).card) := by
  unfold ncoauthors_acc_vec
  match n with
  | 0 => rfl
  | m + 1 =>
    rw [List.range'_succ start m 1, ncoauthorsAccLoop,
      coauthorsBefore_union_start pubs start, List.map_cons,
      ncoauthorsAccLoop_closed pubs m start]

theorem coauthorsUpTo_subset_succ (pubs : List PubRow) (y : Nat) :
    coauthorsUpTo pubs y ⊆ coauthorsUpTo pubs (y + 1) := by
  intro a ha
  simp only [coauthorsUpTo, List.mem_toFinset, List.mem_flatMap,
    List.mem_filter, decide_eq_true_eq] at ha ⊢
  obtain ⟨r, ⟨hr, hy⟩, haa⟩ := ha
  exact ⟨r, ⟨hr, by omega⟩, haa⟩

theorem chain_map_coauthorsUpTo (pubs : List PubRow) :
    ∀ (n s : Nat),
      List.Chain' (· ≤ ·)
        ((List.range' s n).map (fun z => (coauthorsUpTo pubs z).card)) := by
  intro n
  induction n with
  | zero => intro s; simp
  | succ m ih =>
    intro s
    rw [List.range'_succ s m 1, List.map_cons]
    rw [List.chain'_cons']
    refine ⟨?_, ih (s + 1)⟩
    intro b hb
    match m with
    | 0 => simp at hb
    | p + 1 =>
      rw [List.range'_succ (s + 1) p 1, List.map_cons] at hb
      simp only [List.head?_cons, Option.mem_def, Option.some.injEq] at hb
      rw [← hb]
      exact Finset.card_le_card (coauthorsUpTo_subset_succ pubs s)

/-- C5: the `ncoauthors_acc` vector is monotonically non-decreasing across
the year range, and entry `i` counts the distinct coauthors over all
publications dated at most `start + i` — in particular all publications
dated strictly before the range start are folded, through the initial
accumulator, into every entry starting with the first. -/
theorem ncoauthors_acc_spec (pubs : List PubRow) (start n : Nat) :
    List.Chain' (· ≤ ·) (ncoauthors_acc_vec pubs start n) ∧
    ncoauthors_acc_vec pubs start n
      = (List.range' start n).map
          (fun y => (coauthorsUpTo pubs y).card) := by
  refine ⟨?_, ncoauthors_acc_vec_closed pubs start n⟩
  rw [ncoauthors_acc_vec_closed pubs start n]
  exact chain_map_coauthorsUpTo pubs n start

/-- Embeds the `author_pubs` construction of `aggregate_author_info`
(aggregate.py lines 61-63): every author id of the `authors` index starts
with an empty publication set, overridden by the `pubs_by_author` entry when
that author has one.  Under the total-function model a missing
`pubs_by_author` key and an entry equal to `∅` coincide, so the update
collapses to a lookup guarded by index membership. -/
def aggregate_author_pubs (authorIds : List Nat) (pubs : List PubRow) :
    Nat → Finset Nat :=
  fun a => if a ∈ authorIds then pubs_by_author pubs a else ∅

/-- Embeds the per-author body of `npubs` (aggregate.py line 119):
`len(author_pubs[a])`. -/
def npubs_of (apubs : Finset Nat) : Nat := apubs.card

/-- Embeds the per-author body of `ncoauthors` (aggregate.py line 205):
`len(set_union(pubs.authors.loc[author_pubs[a]])) - 1`.  Python integers
are signed, so the value is an `Int`. -/
def ncoauthors_of (pubs : List PubRow) (apubs : Finset Nat) : Int :=
  (((pubs.filter (fun r => r.scopus_id ∈ apubs)).flatMap
      (fun r => r.authors)).toFinset.card : Int) - 1

/-- C10: an author of the index who appears in no publication's author list
is still assigned a publication set, namely the empty one, with
`npubs = 0`; and the computed `ncoauthors` value is `-1` (Python's
`len(set()) - 1`), not 0. -/
theorem empty_author_spec (authorIds : List Nat) (pubs : List PubRow)
    (a : Nat) (ha : a ∈ authorIds) (hnone : ∀ r ∈ pubs, a ∉ r.authors) :
    aggregate_author_pubs authorIds pubs a = ∅ ∧
    npubs_of (aggregate_author_pubs authorIds pubs a) = 0 ∧
    ncoauthors_of pubs (aggregate_author_pubs authorIds pubs a) = -1 := by
  have hempty : pubs_by_author pubs a = ∅ := by
    ext x
    rw [pubs_by_author_mem]
    simp only [Finset.not_mem_empty, iff_false]
    rintro ⟨r, hr, _, hra⟩
    exact hnone r hr hra
  have hap : aggregate_author_pubs authorIds pubs a = ∅ := by
    unfold aggregate_author_pubs
    rw [if_pos ha, hempty]
  refine ⟨hap, ?_, ?_⟩
  · rw [hap]
    rfl
  · rw [hap]
    unfold ncoauthors_of
    have hfil : pubs.filter (fun r => r.scopus_id ∈ (∅ : Finset Nat)) = [] := by
      simp
    rw [hfil]
    rfl

/-- Witness for C10: author 5 of the index appears in no publication of the
collection and gets `ncoauthors = -1`. -/
theorem empty_author_spec_witness :
    ncoauthors_of [{ scopus_id := 1, year := 2000, authors := [2, 3] }]
      (aggregate_author_pubs [5]
        [{ scopus_id := 1, year := 2000, authors := [2, 3] }] 5) = -1 :=
  (empty_author_spec [5] [{ scopus_id := 1, year := 2000, authors := [2, 3] }]
    5 (by decide) (by decide)).2.2

/-- The citation-type argument of `decode_cite_info`: `'all'`,
`'exclude-self'` or `'exclude-books'`. -/
inductive CiteType where
  | all
  | excludeSelf
  | excludeBooks
deriving DecidableEq

/-- The parsed json payload consumed by `Scopus.decode_cite_info`
(scopus.py lines 456-503), restricted to the fields the function reads.
An `Option` field models a missing key (or, for `author` and `cc`, a value
failing the `isinstance(..., list)` test); numbers are Python ints. -/
structure CiteInfo where
  identifier : List Char
  title : Option (List Char)
  publicationName : Option (List Char)
  sortYear : Option Int
  author : Option (List Nat)
  cc : Option (List Int)
  pcc : Option Int
  lcc : Option Int
deriving DecidableEq

/-- The decoded publication record built by `decode_cite_info`.  Exactly
one of the three per-year columns is present, selected by the cite type. -/
structure PubInfo where
  scopus_id : List Char
  title : List Char
  journal : List Char
  year : Int
  authors : List Nat
  cites_by_year : Option (List Int)
  cites_by_year_excl_self : Option (List Int)
  cites_by_year_excl_books : Option (List Int)
  pcc : Int
  lcc : Int
  cites_start_year : Int
  ncites : Int
deriving DecidableEq

/-- Embeds `Scopus.decode_cite_info(cite_info, start_year, cite_type)`.
The per-year vector is stored under the column selected by `cite_type`,
but the final line
`info['ncites'] = sum(info['cites_by_year']) + info['pcc'] + info['lcc']`
reads the `'all'` column unconditionally, so for the two other cite types
the Python raises `KeyError` and no record is produced — modeled by
returning `none` when the `'all'` column is absent. -/
def decode_cite_info (cite_info : CiteInfo) (start_year : Int)
    (cite_type : CiteType) : Option PubInfo :=
  let v := (cite_info.cc).getD []
  if cite_type = CiteType.all then
    some
      { scopus_id := cite_info.identifier.drop 10
        title := (cite_info.title).getD []
        journal := (cite_info.publicationName).getD []
        year := (cite_info.sortYear).getD 0
        authors := (cite_info.author).getD []
        cites_by_year := some v
        cites_by_year_excl_self :=
          if cite_type = CiteType.excludeSelf then some v else none
        cites_by_year_excl_books :=
          if cite_type = CiteType.excludeBooks then some v else none
        pcc := (cite_info.pcc).getD 0
        lcc := (cite_info.lcc).getD 0
        cites_start_year := start_year
        ncites := v.sum + (cite_info.pcc).getD 0 + (cite_info.lcc).getD 0 }
  else none

/-- A payload whose prior-cumulative-citation count is negative; the code
parses it without complaint. -/
def negCiteInfo : CiteInfo :=
  { identifier := [], title := none, publicationName := none,
    sortYear := none, author := none, cc := none, pcc := some (-1),
    lcc := none }

/-- Counterexample for C8: `decode_cite_info` happily produces a record with
`ncites = -1 < 0` from a payload carrying `pcc = -1`, refuting the
unconditional invariant `ncites ≥ 0`. -/
theorem decode_cite_info_counterexample :
    (decode_cite_info negCiteInfo 1990 CiteType.all).map PubInfo.ncites
      = some (-1) := by
  decide

/-- C8 amended: every record `decode_cite_info` produces satisfies
`ncites` = (sum of the per-year citation vector) + `pcc` + `lcc`, and its
`cites_start_year` equals the start year passed in (the vector's length
thus fixes the implicit end year); `ncites ≥ 0` holds provided the payload's
per-year citation entries, `pcc` and `lcc` are non-negative — the code does
not itself rule out negative counts. -/
theorem decode_cite_info_spec (c : CiteInfo) (s : Int) (t : CiteType)
    (p : PubInfo) (hp : decode_cite_info c s t = some p) :
    p.cites_start_year = s ∧
    p.cites_by_year = some ((c.cc).getD []) ∧
    p.ncites = ((p.cites_by_year).getD []).sum + p.pcc + p.lcc ∧
    ((∀ x ∈ (c.cc).getD [], (0 : Int) ≤ x) → 0 ≤ (c.pcc).getD 0 →
      0 ≤ (c.lcc).getD 0 → 0 ≤ p.ncites) := by
  match t with
  | CiteType.excludeSelf => simp [decode_cite_info] at hp
  | CiteType.excludeBooks => simp [decode_cite_info] at hp
  | CiteType.all =>
    simp only [decode_cite_info, reduceIte, Option.some.injEq] at hp
    subst hp
    refine ⟨rfl, rfl, rfl, ?_⟩
    intro hcc hpcc hlcc
    have hsum : (0 : Int) ≤ ((c.cc).getD []).sum := List.sum_nonneg hcc
    simp only
    omega

/-- A well-formed payload: identifier `SCOPUS_ID:77`, per-year citations
`[1, 2]`, `pcc = 3`. -/
def posCiteInfo : CiteInfo :=
  { identifier := ['S', 'C', 'O', 'P', 'U', 'S', '_', 'I', 'D', ':', '7', '7'],
    title := none, publicationName := none, sortYear := none, author := none,
    cc := some [1, 2], pcc := some 3, lcc := none }

/-- The record `decode_cite_info` produces from `posCiteInfo` at start year
1990 with cite type `'all'`. -/
def decodedPos : PubInfo :=
  { scopus_id := ['7', '7'], title := [], journal := [], year := 0,
    authors := [], cites_by_year := some [1, 2],
    cites_by_year_excl_self := none, cites_by_year_excl_books := none,
    pcc := 3, lcc := 0, cites_start_year := 1990, ncites := 6 }

/-- Witness for C8: a payload with per-year citations `[1, 2]` and
`pcc = 3` decodes to a record anchored at 1990 with `ncites = 6 ≥ 0`. -/
theorem decode_cite_info_spec_witness :
    decodedPos.cites_start_year = 1990 ∧ 0 ≤ decodedPos.ncites := by
  have h := decode_cite_info_spec posCiteInfo 1990 CiteType.all decodedPos
    (by decide)
  exact ⟨h.1, h.2.2.2 (by decide) (by decide) (by decide)⟩

end Scopuscite
